import Mathlib

/-!
Verification of the memcomparable byte codec in util/codec/bytes.go.

Byte strings are modelled as List Nat; every value a Go byte variable can
hold is below 256, which the predicate isBytes expresses where a proof
needs it.  Go slices additionally carry a capacity, modelled by GoSlice
where capacity matters (reallocBytes).  In-place mutation of a caller's
buffer (reverseBytes inside decodeBytes) is modelled by returning the
final contents of the whole buffer next to the functional result.
-/

/-- Group size constant encGroupSize = 8 from bytes.go. -/
def encGroupSize : Nat := 8

/-- Marker constant encMarker = 0xFF from bytes.go. -/
def encMarker : Nat := 255

/-- Padding constant encPad = 0x0 from bytes.go. -/
def encPad : Nat := 0

/-- All entries are byte values (Go type byte). -/
def isBytes (l : List Nat) : Prop := ∀ c ∈ l, c < 256

instance : DecidablePred isBytes := fun l =>
  List.decidableBAll (fun c => c < 256) l

/-- Bitwise complement of a byte: Go ^c on a byte c equals 255 - c. -/
def complByte (c : Nat) : Nat := 255 - c

/-- A Go slice: contents plus capacity (cap b in Go). -/
structure GoSlice where
  data : List Nat
  cap : Nat
  deriving DecidableEq

/-- reallocBytes from bytes.go: if cap(b) < n, allocate a fresh buffer of
length len(b) and capacity len(b)+n and copy b into it, else return b. -/
def reallocBytes (b : GoSlice) (n : Nat) : GoSlice :=
  if b.cap < n then GoSlice.mk b.data (b.data.length + n) else b

/-- reallocBytes never changes the contents, only the capacity; this is
what justifies eliding the reallocBytes call in the contents-level model
of EncodeBytes below. -/
theorem reallocBytes_data (b : GoSlice) (n : Nat) :
    (reallocBytes b n).data = b.data := by
  unfold reallocBytes; split <;> rfl

/-- Go wordSize = unsafe.Sizeof(uintptr(0)): 8 on the 64-bit platforms. -/
def wordSize : Nat := 8

/-- supportsUnaligned = (GOARCH is 386 or amd64); the model fixes the
little-endian 64-bit amd64 platform, where it is true. -/
def supportsUnaligned : Bool := true

/-- Little-endian reinterpretation of a byte sequence as a machine word,
as done by the unsafe cast of a []byte to []uintptr in fastReverseBytes. -/
def bytesToWord : List Nat → Nat
  | [] => 0
  | c :: rest => c + 256 * bytesToWord rest

/-- Write a machine word back as k little-endian bytes. -/
def wordToBytes : Nat → Nat → List Nat
  | 0, _ => []
  | k + 1, v => v % 256 :: wordToBytes k (v / 256)

/-- fastReverseBytes from bytes.go: complement w = n/wordSize full words
through the []uintptr view (a word complement ^v is 2^64 - 1 - v modulo
2^64), then complement the trailing n - w*wordSize bytes one at a time.
With wordSize = 8 the word loop consumes exactly the leading groups of 8
bytes, which the 8-deep pattern expresses. -/
def fastReverseBytes : List Nat → List Nat
  | b0 :: b1 :: b2 :: b3 :: b4 :: b5 :: b6 :: b7 :: rest =>
      wordToBytes wordSize
        (2 ^ (8 * wordSize) - 1 - bytesToWord [b0, b1, b2, b3, b4, b5, b6, b7] % 2 ^ (8 * wordSize))
        ++ fastReverseBytes rest
  | b => b.map complByte

/-- safeReverseBytes from bytes.go: complement every byte in place. -/
def safeReverseBytes (b : List Nat) : List Nat :=
  b.map complByte

/-- reverseBytes from bytes.go: choose the bulk path when the platform
allows unaligned word access, else the byte-at-a-time path. -/
def reverseBytes (b : List Nat) : List Nat :=
  if supportsUnaligned then fastReverseBytes b else safeReverseBytes b

/-- The loop of EncodeBytes from bytes.go: while at least encGroupSize
bytes of data remain (the Go loop condition idx <= dLen together with
remain >= encGroupSize), append a full 8-byte group and the marker 255;
otherwise append the remaining bytes, pad with zeros to 8 bytes and
append the marker 255 - padCount, which also ends the loop.  The 8-deep
pattern is the structural form of the remain >= encGroupSize test. -/
def encodeBytesLoop : List Nat → List Nat → List Nat
  | d0 :: d1 :: d2 :: d3 :: d4 :: d5 :: d6 :: d7 :: rest, result =>
      encodeBytesLoop rest (result ++ [d0, d1, d2, d3, d4, d5, d6, d7] ++ [encMarker])
  | data, result =>
      result ++ data ++ List.replicate (encGroupSize - data.length) encPad
        ++ [encMarker - (encGroupSize - data.length)]

/-- EncodeBytes from bytes.go at the contents level.  The reallocBytes
call in the source only pre-grows capacity and keeps the contents (see
reallocBytes_data), so the contents-level model starts the loop directly
from b. -/
def EncodeBytes (b data : List Nat) : List Nat :=
  encodeBytesLoop data b

/-- The encoding appended for one data value: EncodeBytes from an empty
buffer. -/
def encodeList (data : List Nat) : List Nat :=
  encodeBytesLoop data []

/-- EncodeBytesDesc from bytes.go: run the ascending encoder, then
complement (reverseBytes) exactly the appended region b[n:]. -/
def EncodeBytesDesc (b data : List Nat) : List Nat :=
  let n := b.length
  let b2 := EncodeBytes b data
  b2.take n ++ reverseBytes (b2.drop n)

/-- The loop of decodeBytes from bytes.go, with the in-place mutation of
the caller's buffer made explicit: proc holds the already-consumed front
of the buffer (complemented in place when reverse is set, because
reverseBytes(groupBytes) rewrites b[:9] before any validity check), b the
not-yet-consumed rest, data the accumulated output.  The first component
of the result is the final contents of the whole input buffer, the second
the returned (remainder, data) or error.  The 9-deep pattern is the
structural form of the len(b) < encGroupSize+1 test. -/
def decodeBytesLoop (reverse : Bool) :
    List Nat → List Nat → List Nat → List Nat × Except String (List Nat × List Nat)
  | proc, b0 :: b1 :: b2 :: b3 :: b4 :: b5 :: b6 :: b7 :: b8 :: rest, data =>
    let groupBytes := if reverse then reverseBytes [b0, b1, b2, b3, b4, b5, b6, b7, b8]
                      else [b0, b1, b2, b3, b4, b5, b6, b7, b8]
    let group := groupBytes.take encGroupSize
    let marker := groupBytes.getD encGroupSize 0
    let padCount := encMarker - marker
    if encGroupSize < padCount then
      (proc ++ groupBytes ++ rest, .error "invalid marker byte")
    else
      let realGroupSize := encGroupSize - padCount
      let data2 := data ++ group.take realGroupSize
      if marker ≠ encMarker then
        if (group.drop realGroupSize).count encPad ≠ padCount then
          (proc ++ groupBytes ++ rest, .error "invalid padding byte")
        else
          (proc ++ groupBytes ++ rest, .ok (rest, data2))
      else
        decodeBytesLoop reverse (proc ++ groupBytes) rest data2
  | proc, b, _ => (proc ++ b, .error "insufficient bytes to decode value")

/-- decodeBytes from bytes.go: the functional result (remainder, data, or
the error). -/
def decodeBytes (b : List Nat) (reverse : Bool) :
    Except String (List Nat × List Nat) :=
  (decodeBytesLoop reverse [] b []).2

/-- The final contents of the caller's buffer after decodeBytes ran on
it: identical to the input for the ascending path, complemented group by
group for the descending path. -/
def decodeBytesBuffer (b : List Nat) (reverse : Bool) : List Nat :=
  (decodeBytesLoop reverse [] b []).1

/-- DecodeBytes from bytes.go. -/
def DecodeBytes (b : List Nat) : Except String (List Nat × List Nat) :=
  decodeBytes b false

/-- DecodeBytesDesc from bytes.go. -/
def DecodeBytesDesc (b : List Nat) : Except String (List Nat × List Nat) :=
  decodeBytes b true

/-- Three-way bytewise lexicographic comparison, Go bytes.Compare, the
compareBytes of the spec. -/
def compareBytes : List Nat → List Nat → Int
  | [], [] => 0
  | [], _ :: _ => -1
  | _ :: _, [] => 1
  | x :: xs, y :: ys =>
    if x < y then -1 else if y < x then 1 else compareBytes xs ys

/-- Modelled from the spec: the external varint decoder DecodeVarint is
not part of this source file; the spec treats it as a black box that
decodes a 64-bit signed integer from a byte prefix, consuming exactly
the bytes it produced, in the standard signed (zigzag) varint format.
This is the unsigned base-128 little-endian layer. -/
def decodeUvarint : List Nat → Except String (List Nat × Nat)
  | [] => .error "insufficient bytes to decode value"
  | c :: rest =>
    if c < 128 then .ok (rest, c)
    else
      match decodeUvarint rest with
      | .error e => .error e
      | .ok (r, v) => .ok (r, (c - 128) + 128 * v)

/-- Modelled from the spec: signed varint decoding, the zigzag unmapping
of the unsigned value (Go binary.Varint). -/
def decodeVarintModel (b : List Nat) : Except String (List Nat × Int) :=
  match decodeUvarint b with
  | .error e => .error e
  | .ok (r, uv) =>
    .ok (r, if uv % 2 = 1 then -((uv / 2 : Nat) : Int) - 1 else ((uv / 2 : Nat) : Int))

/-- Outcome of running a Go function: a normal return, a returned error,
or a runtime panic. -/
inductive GoResult (α : Type) where
  | ok : α → GoResult α
  | err : String → GoResult α
  | panics : GoResult α
  deriving DecidableEq

/-- DecodeCompactBytes from bytes.go: decode a varint length n, return a
wrapped error if that fails; return the insufficient-bytes error if
int64(len(b)) < n; otherwise run make([]byte, int(n)) and copy.  When n
is negative the length check int64(len(b)) < n is false (len(b) is never
below 0 > n) so control reaches make([]byte, int(n)), which panics at
runtime on a negative length; the .panics value records exactly that
outcome.  On success the payload is the fresh copy of b[:n] and the
remainder b[n:]. -/
def DecodeCompactBytes (b : List Nat) : GoResult (List Nat × List Nat) :=
  match decodeVarintModel b with
  | .error e => .err e
  | .ok (b2, n) =>
    if (b2.length : Int) < n then
      .err "insufficient bytes to decode value"
    else if n < 0 then
      .panics
    else
      .ok (b2.drop n.toNat, b2.take n.toNat)

/-- Strict lexicographic order on byte strings: a proper prefix is
smaller, otherwise the first differing byte decides. -/
def lexLt : List Nat → List Nat → Prop
  | [], [] => False
  | [], _ :: _ => True
  | _ :: _, [] => False
  | x :: xs, y :: ys => x < y ∨ (x = y ∧ lexLt xs ys)

/-- Strict lexicographic order forced by an actual byte difference (the
proper-prefix case excluded). -/
def lexLtD : List Nat → List Nat → Prop
  | _, [] => False
  | [], _ :: _ => False
  | x :: xs, y :: ys => x < y ∨ (x = y ∧ lexLtD xs ys)

theorem lexLtD_lexLt : ∀ {a b : List Nat}, lexLtD a b → lexLt a b
  | [], [], h => h.elim
  | [], _ :: _, h => h.elim
  | _ :: _, [], h => h.elim
  | _ :: _, _ :: _, h => by
    rcases h with h | ⟨rfl, h⟩
    · exact Or.inl h
    · exact Or.inr ⟨rfl, lexLtD_lexLt h⟩

theorem compareBytes_eq_zero_iff : ∀ a b : List Nat, compareBytes a b = 0 ↔ a = b
  | [], [] => by simp [compareBytes]
  | [], _ :: _ => by simp [compareBytes]
  | _ :: _, [] => by simp [compareBytes]
  | x :: xs, y :: ys => by
    unfold compareBytes
    rcases Nat.lt_trichotomy x y with h | h | h
    · simp [h]
      omega
    · subst h
      simp [compareBytes_eq_zero_iff xs ys]
    · rw [if_neg (by omega), if_pos h]
      simp
      omega

theorem compareBytes_eq_neg_iff : ∀ a b : List Nat, compareBytes a b = -1 ↔ lexLt a b
  | [], [] => by simp [compareBytes, lexLt]
  | [], _ :: _ => by simp [compareBytes, lexLt]
  | _ :: _, [] => by simp [compareBytes, lexLt]
  | x :: xs, y :: ys => by
    unfold compareBytes lexLt
    rcases Nat.lt_trichotomy x y with h | h | h
    · simp [h]
    · subst h
      simp [compareBytes_eq_neg_iff xs ys]
    · rw [if_neg (by omega), if_pos h]
      constructor
      · intro hc
        exact absurd hc (by decide)
      · intro hc
        rcases hc with hc | ⟨hc, _⟩ <;> omega

theorem compareBytes_eq_one_iff : ∀ a b : List Nat, compareBytes a b = 1 ↔ lexLt b a
  | [], [] => by simp [compareBytes, lexLt]
  | [], _ :: _ => by simp [compareBytes, lexLt]
  | _ :: _, [] => by simp [compareBytes, lexLt]
  | x :: xs, y :: ys => by
    unfold compareBytes lexLt
    rcases Nat.lt_trichotomy x y with h | h | h
    · rw [if_pos h]
      constructor
      · intro hc
        exact absurd hc (by decide)
      · intro hc
        rcases hc with hc | ⟨hc, _⟩ <;> omega
    · subst h
      simp [compareBytes_eq_one_iff xs ys]
    · rw [if_neg (by omega), if_pos h]
      simp [h]

theorem compareBytes_trichot (a b : List Nat) :
    compareBytes a b = -1 ∨ compareBytes a b = 0 ∨ compareBytes a b = 1 := by
  induction a generalizing b with
  | nil => cases b <;> simp [compareBytes]
  | cons x xs ih =>
    cases b with
    | nil => simp [compareBytes]
    | cons y ys =>
      unfold compareBytes
      split
      · simp
      · split
        · simp
        · exact ih ys

theorem exists_cons8 {d : List Nat} (h : 8 ≤ d.length) :
    ∃ x0 x1 x2 x3 x4 x5 x6 x7 t,
      d = x0 :: x1 :: x2 :: x3 :: x4 :: x5 :: x6 :: x7 :: t := by
  rcases d with _ | ⟨x0, d⟩; · simp at h
  rcases d with _ | ⟨x1, d⟩; · simp at h
  rcases d with _ | ⟨x2, d⟩; · simp at h
  rcases d with _ | ⟨x3, d⟩; · simp at h
  rcases d with _ | ⟨x4, d⟩; · simp at h
  rcases d with _ | ⟨x5, d⟩; · simp at h
  rcases d with _ | ⟨x6, d⟩; · simp at h
  rcases d with _ | ⟨x7, d⟩; · simp at h
  exact ⟨x0, x1, x2, x3, x4, x5, x6, x7, d, rfl⟩

theorem encodeBytesLoop_ge (d res : List Nat) (h : 8 ≤ d.length) :
    encodeBytesLoop d res
      = encodeBytesLoop (d.drop 8) (res ++ d.take 8 ++ [encMarker]) := by
  obtain ⟨x0, x1, x2, x3, x4, x5, x6, x7, t, rfl⟩ := exists_cons8 h
  rfl

theorem encodeBytesLoop_lt (d res : List Nat) (h : d.length < 8) :
    encodeBytesLoop d res
      = res ++ d ++ List.replicate (8 - d.length) 0 ++ [255 - (8 - d.length)] := by
  rcases d with _ | ⟨x0, d⟩; · rfl
  rcases d with _ | ⟨x1, d⟩; · rfl
  rcases d with _ | ⟨x2, d⟩; · rfl
  rcases d with _ | ⟨x3, d⟩; · rfl
  rcases d with _ | ⟨x4, d⟩; · rfl
  rcases d with _ | ⟨x5, d⟩; · rfl
  rcases d with _ | ⟨x6, d⟩; · rfl
  rcases d with _ | ⟨x7, d⟩; · rfl
  simp at h
  omega

theorem encodeBytesLoop_append :
    ∀ (n : Nat) (d res : List Nat), d.length ≤ n →
      encodeBytesLoop d res = res ++ encodeList d := by
  intro n
  induction n with
  | zero =>
    intro d res h
    rcases d with _ | ⟨x, d⟩
    · simp [encodeBytesLoop, encodeList]
    · simp at h
  | succ n ih =>
    intro d res h
    by_cases h8 : 8 ≤ d.length
    · rw [encodeBytesLoop_ge d res h8,
        ih (d.drop 8) _ (by simp; omega),
        show encodeList d = encodeBytesLoop d [] from rfl,
        encodeBytesLoop_ge d [] h8,
        ih (d.drop 8) _ (by simp; omega)]
      simp
    · rw [encodeBytesLoop_lt d res (by omega),
        show encodeList d = encodeBytesLoop d [] from rfl,
        encodeBytesLoop_lt d [] (by omega)]
      simp

theorem EncodeBytes_append (b d : List Nat) :
    EncodeBytes b d = b ++ encodeList d :=
  encodeBytesLoop_append d.length d b le_rfl

theorem encodeList_ge (d : List Nat) (h : 8 ≤ d.length) :
    encodeList d = d.take 8 ++ 255 :: encodeList (d.drop 8) := by
  show encodeBytesLoop d [] = _
  rw [encodeBytesLoop_ge d [] h,
    encodeBytesLoop_append (d.drop 8).length (d.drop 8) _ le_rfl]
  simp [encMarker]

theorem encodeList_lt (d : List Nat) (h : d.length < 8) :
    encodeList d = d ++ List.replicate (8 - d.length) 0 ++ [255 - (8 - d.length)] := by
  show encodeBytesLoop d [] = _
  rw [encodeBytesLoop_lt d [] h]
  simp

theorem isBytes_append {a b : List Nat} :
    isBytes (a ++ b) ↔ isBytes a ∧ isBytes b := by
  simp [isBytes, List.mem_append, or_imp, forall_and]

theorem isBytes_take {l : List Nat} (h : isBytes l) (n : Nat) :
    isBytes (l.take n) :=
  fun c hc => h c (List.take_subset n l hc)

theorem isBytes_drop {l : List Nat} (h : isBytes l) (n : Nat) :
    isBytes (l.drop n) :=
  fun c hc => h c (List.drop_subset n l hc)

theorem isBytes_replicate (n c : Nat) (h : c < 256) :
    isBytes (List.replicate n c) := by
  intro x hx
  rcases List.eq_of_mem_replicate hx with rfl
  exact h

theorem isBytes_encodeList :
    ∀ (n : Nat) (d : List Nat), d.length ≤ n → isBytes d → isBytes (encodeList d) := by
  intro n
  induction n with
  | zero =>
    intro d hn hd
    rcases d with _ | ⟨x, d⟩
    · intro c hc
      rw [encodeList_lt [] (by simp)] at hc
      simp at hc
      rcases hc with rfl | rfl <;> omega
    · simp at hn
  | succ n ih =>
    intro d hn hd
    by_cases h8 : 8 ≤ d.length
    · rw [encodeList_ge d h8]
      rw [show d.take 8 ++ 255 :: encodeList (d.drop 8)
            = d.take 8 ++ [255] ++ encodeList (d.drop 8) by simp]
      rw [isBytes_append, isBytes_append]
      refine ⟨⟨isBytes_take hd 8, ?_⟩, ih (d.drop 8) (by simp; omega) (isBytes_drop hd 8)⟩
      intro c hc
      simp at hc
      omega
    · rw [encodeList_lt d (by omega), isBytes_append, isBytes_append]
      refine ⟨⟨hd, isBytes_replicate _ 0 (by omega)⟩, ?_⟩
      intro c hc
      simp at hc
      omega

theorem complByte_complByte {c : Nat} (h : c < 256) :
    complByte (complByte c) = c := by
  unfold complByte
  omega

theorem isBytes_map_complByte (l : List Nat) : isBytes (l.map complByte) := by
  intro c hc
  simp [complByte] at hc
  omega

theorem map_complByte_complByte {l : List Nat} (h : isBytes l) :
    (l.map complByte).map complByte = l := by
  induction l with
  | nil => rfl
  | cons x xs ih =>
    have hx : x < 256 := h x (by simp)
    simp only [List.map_cons, complByte_complByte hx,
      ih (fun c hc => h c (by simp [hc]))]

theorem wordToBytes_word (v : Nat) :
    wordToBytes wordSize v
      = [v % 256, v / 256 % 256, v / 256 / 256 % 256, v / 256 / 256 / 256 % 256,
         v / 256 / 256 / 256 / 256 % 256, v / 256 / 256 / 256 / 256 / 256 % 256,
         v / 256 / 256 / 256 / 256 / 256 / 256 % 256,
         v / 256 / 256 / 256 / 256 / 256 / 256 / 256 % 256] :=
  rfl

theorem fastReverseBytes_word (b0 b1 b2 b3 b4 b5 b6 b7 : Nat)
    (h0 : b0 < 256) (h1 : b1 < 256) (h2 : b2 < 256) (h3 : b3 < 256)
    (h4 : b4 < 256) (h5 : b5 < 256) (h6 : b6 < 256) (h7 : b7 < 256) :
    wordToBytes wordSize
        (2 ^ (8 * wordSize) - 1
          - bytesToWord [b0, b1, b2, b3, b4, b5, b6, b7] % 2 ^ (8 * wordSize))
      = [b0, b1, b2, b3, b4, b5, b6, b7].map complByte := by
  have hb : bytesToWord [b0, b1, b2, b3, b4, b5, b6, b7]
      = b0 + 256 * (b1 + 256 * (b2 + 256 * (b3 + 256 * (b4 + 256 * (b5 + 256 * (b6 + 256 * b7)))))) := by
    simp [bytesToWord]
  have h64 : 2 ^ (8 * wordSize) = 18446744073709551616 := by norm_num [wordSize]
  rw [h64, hb, Nat.mod_eq_of_lt (by omega)]
  have hE : 18446744073709551616 - 1
        - (b0 + 256 * (b1 + 256 * (b2 + 256 * (b3 + 256 * (b4 + 256 * (b5 + 256 * (b6 + 256 * b7)))))))
      = (255 - b0) + 256 * ((255 - b1) + 256 * ((255 - b2) + 256 * ((255 - b3)
          + 256 * ((255 - b4) + 256 * ((255 - b5) + 256 * ((255 - b6) + 256 * (255 - b7))))))) := by
    omega
  rw [hE, wordToBytes_word]
  simp only [List.map_cons, List.map_nil, List.cons.injEq, and_true, complByte]
  refine ⟨?_, ?_, ?_, ?_, ?_, ?_, ?_, ?_⟩ <;> omega

theorem fastReverseBytes_lt (b : List Nat) (h : b.length < 8) :
    fastReverseBytes b = b.map complByte := by
  rcases b with _ | ⟨x0, b⟩; · rfl
  rcases b with _ | ⟨x1, b⟩; · rfl
  rcases b with _ | ⟨x2, b⟩; · rfl
  rcases b with _ | ⟨x3, b⟩; · rfl
  rcases b with _ | ⟨x4, b⟩; · rfl
  rcases b with _ | ⟨x5, b⟩; · rfl
  rcases b with _ | ⟨x6, b⟩; · rfl
  rcases b with _ | ⟨x7, b⟩; · rfl
  simp at h
  omega

theorem fastReverseBytes_eq_safe :
    ∀ (n : Nat) (b : List Nat), b.length ≤ n → isBytes b →
      fastReverseBytes b = safeReverseBytes b := by
  intro n
  induction n with
  | zero =>
    intro b hn hb
    rcases b with _ | ⟨x, b⟩
    · rfl
    · simp at hn
  | succ n ih =>
    intro b hn hb
    by_cases h8 : 8 ≤ b.length
    · obtain ⟨x0, x1, x2, x3, x4, x5, x6, x7, t, rfl⟩ := exists_cons8 h8
      have hx : ∀ c ∈ [x0, x1, x2, x3, x4, x5, x6, x7], c < 256 := by
        intro c hc
        apply hb
        simp at hc ⊢
        tauto
      have ht : fastReverseBytes t = safeReverseBytes t := by
        apply ih t (by simp at hn ⊢; omega)
        intro c hc
        apply hb
        simp [hc]
      show wordToBytes wordSize _ ++ fastReverseBytes t = _
      rw [fastReverseBytes_word x0 x1 x2 x3 x4 x5 x6 x7
          (hx x0 (by simp)) (hx x1 (by simp)) (hx x2 (by simp)) (hx x3 (by simp))
          (hx x4 (by simp)) (hx x5 (by simp)) (hx x6 (by simp)) (hx x7 (by simp)),
        ht]
      simp [safeReverseBytes]
    · rw [fastReverseBytes_lt b (by omega)]
      rfl

theorem reverseBytes_eq_map {b : List Nat} (h : isBytes b) :
    reverseBytes b = b.map complByte :=
  (if_pos rfl).trans (fastReverseBytes_eq_safe b.length b le_rfl h)

theorem decodeBytesLoop_short (rev : Bool) (proc b data : List Nat) (h : b.length < 9) :
    decodeBytesLoop rev proc b data
      = (proc ++ b, .error "insufficient bytes to decode value") := by
  rcases b with _ | ⟨x0, b⟩; · rfl
  rcases b with _ | ⟨x1, b⟩; · rfl
  rcases b with _ | ⟨x2, b⟩; · rfl
  rcases b with _ | ⟨x3, b⟩; · rfl
  rcases b with _ | ⟨x4, b⟩; · rfl
  rcases b with _ | ⟨x5, b⟩; · rfl
  rcases b with _ | ⟨x6, b⟩; · rfl
  rcases b with _ | ⟨x7, b⟩; · rfl
  rcases b with _ | ⟨x8, b⟩; · rfl
  simp at h
  omega

theorem decodeBytesLoop_false_step (g : List Nat) (m : Nat) (rest proc data : List Nat)
    (hg : g.length = 8) :
    decodeBytesLoop false proc ((g ++ [m]) ++ rest) data =
      if 8 < 255 - m then
        (proc ++ (g ++ [m]) ++ rest, .error "invalid marker byte")
      else if m ≠ 255 then
        if (g.drop (8 - (255 - m))).count 0 ≠ 255 - m then
          (proc ++ (g ++ [m]) ++ rest, .error "invalid padding byte")
        else
          (proc ++ (g ++ [m]) ++ rest, .ok (rest, data ++ g.take (8 - (255 - m))))
      else
        decodeBytesLoop false (proc ++ (g ++ [m])) rest (data ++ g) := by
  obtain ⟨x0, x1, x2, x3, x4, x5, x6, x7, t, rfl⟩ := @exists_cons8 g (by omega)
  have ht : t = [] := by simpa using hg
  subst ht
  simp only [List.cons_append, List.nil_append]
  simp [decodeBytesLoop, encGroupSize, encMarker, encPad]
  split_ifs with h1 h2 h3 <;> simp_all

theorem decodeBytesLoop_true_step (g : List Nat) (m : Nat) (rest proc data : List Nat)
    (hg : g.length = 8) (hb : isBytes (g ++ [m])) :
    decodeBytesLoop true proc ((g ++ [m]) ++ rest) data =
      if 8 < m then
        (proc ++ (g.map complByte ++ [complByte m]) ++ rest, .error "invalid marker byte")
      else if m ≠ 0 then
        if ((g.map complByte).drop (8 - m)).count 0 ≠ m then
          (proc ++ (g.map complByte ++ [complByte m]) ++ rest, .error "invalid padding byte")
        else
          (proc ++ (g.map complByte ++ [complByte m]) ++ rest,
            .ok (rest, data ++ (g.map complByte).take (8 - m)))
      else
        decodeBytesLoop true (proc ++ (g.map complByte ++ [complByte m])) rest
          (data ++ g.map complByte) := by
  have hm : m < 256 := hb m (by simp)
  obtain ⟨x0, x1, x2, x3, x4, x5, x6, x7, t, rfl⟩ := @exists_cons8 g (by omega)
  have ht : t = [] := by simpa using hg
  subst ht
  have hrev : reverseBytes [x0, x1, x2, x3, x4, x5, x6, x7, m]
      = [x0, x1, x2, x3, x4, x5, x6, x7, m].map complByte := by
    apply reverseBytes_eq_map
    intro c hc
    apply hb
    simpa using hc
  have e1 : 255 - (255 - m) = m := by omega
  have e2 : (255 - m ≠ 255) ↔ (m ≠ 0) := by omega
  simp only [List.cons_append, List.nil_append]
  simp [decodeBytesLoop, hrev, encGroupSize, encMarker, encPad, complByte, e1, e2]
  split_ifs with h1 h2 h3 <;> simp_all

theorem decodeBytesLoop_encode_false :
    ∀ (n : Nat) (d : List Nat), d.length ≤ n → ∀ (t proc data : List Nat),
      decodeBytesLoop false proc (encodeList d ++ t) data
        = (proc ++ encodeList d ++ t, .ok (t, data ++ d)) := by
  intro n
  induction n with
  | zero =>
    intro d hn t proc data
    rcases d with _ | ⟨x, d⟩
    · rw [encodeList_lt [] (by simp)]
      have hsh : (([] : List Nat) ++ List.replicate (8 - List.length ([] : List Nat)) 0
            ++ [255 - (8 - List.length ([] : List Nat))]) ++ t
          = (List.replicate 8 0 ++ [247]) ++ t := by
        norm_num
      rw [hsh, decodeBytesLoop_false_step (List.replicate 8 0) 247 t proc data (by simp)]
      norm_num [encodeList_lt]
    · simp at hn
  | succ n ih =>
    intro d hn t proc data
    by_cases h8 : 8 ≤ d.length
    · rw [encodeList_ge d h8]
      have hsh : (d.take 8 ++ 255 :: encodeList (d.drop 8)) ++ t
          = (d.take 8 ++ [255]) ++ (encodeList (d.drop 8) ++ t) := by simp
      rw [hsh, decodeBytesLoop_false_step (d.take 8) 255 _ proc data
          (by simp [List.length_take]; omega)]
      norm_num
      rw [ih (d.drop 8) (by simp; omega) t _ _]
      simp [List.take_append_drop]
    · rw [encodeList_lt d (by omega)]
      have hsh : (d ++ List.replicate (8 - d.length) 0 ++ [255 - (8 - d.length)]) ++ t
          = ((d ++ List.replicate (8 - d.length) 0) ++ [255 - (8 - d.length)]) ++ t := by
        simp
      rw [hsh, decodeBytesLoop_false_step (d ++ List.replicate (8 - d.length) 0)
          (255 - (8 - d.length)) t proc data (by simp; omega)]
      rw [if_neg (by omega), if_pos (by omega)]
      have hc : ((d ++ List.replicate (8 - d.length) 0).drop
            (8 - (255 - (255 - (8 - d.length))))).count 0 = 255 - (255 - (8 - d.length)) := by
        have e1 : 255 - (255 - (8 - d.length)) = 8 - d.length := by omega
        have e2 : 8 - (8 - d.length) = d.length := by omega
        rw [e1, e2, List.drop_left' rfl, List.count_replicate_self]
      rw [if_neg (by omega)]
      have e1 : 8 - (255 - (255 - (8 - d.length))) = d.length := by omega
      rw [e1, List.take_left' rfl]

theorem decodeBytesLoop_true_final (d : List Nat) (hlt : d.length < 8) (hd : isBytes d)
    (t proc data : List Nat) :
    decodeBytesLoop true proc ((encodeList d).map complByte ++ t) data
      = (proc ++ encodeList d ++ t, .ok (t, data ++ d)) := by
  rw [encodeList_lt d hlt]
  have hck : complByte (255 - (8 - d.length)) = 8 - d.length := by
    unfold complByte
    omega
  have hsh : ((d ++ List.replicate (8 - d.length) 0 ++ [255 - (8 - d.length)]).map complByte) ++ t
      = ((d.map complByte ++ List.replicate (8 - d.length) 255) ++ [8 - d.length]) ++ t := by
    simp only [List.map_append, List.map_replicate, List.map_cons, List.map_nil, hck]
    simp [complByte]
  rw [hsh, decodeBytesLoop_true_step (d.map complByte ++ List.replicate (8 - d.length) 255)
      (8 - d.length) t proc data (by simp; omega)
      (isBytes_append.mpr ⟨isBytes_append.mpr
        ⟨isBytes_map_complByte _, isBytes_replicate _ 255 (by omega)⟩,
        by intro c hc; simp at hc; omega⟩)]
  rw [if_neg (by omega), if_pos (by omega)]
  have hgc : (d.map complByte ++ List.replicate (8 - d.length) 255).map complByte
      = d ++ List.replicate (8 - d.length) 0 := by
    simp only [List.map_append, List.map_replicate, map_complByte_complByte hd]
    simp [complByte]
  rw [hgc]
  have e2 : 8 - (8 - d.length) = d.length := by omega
  have hcnt : ((d ++ List.replicate (8 - d.length) 0).drop (8 - (8 - d.length))).count 0
      = 8 - d.length := by
    rw [e2, List.drop_left' rfl, List.count_replicate_self]
  rw [if_neg (by simp [hcnt])]
  rw [e2, List.take_left' rfl]
  simp [complByte, hck]

theorem decodeBytesLoop_encode_true :
    ∀ (n : Nat) (d : List Nat), d.length ≤ n → isBytes d → ∀ (t proc data : List Nat),
      decodeBytesLoop true proc ((encodeList d).map complByte ++ t) data
        = (proc ++ encodeList d ++ t, .ok (t, data ++ d)) := by
  intro n
  induction n with
  | zero =>
    intro d hn hd t proc data
    rcases d with _ | ⟨x, d⟩
    · exact decodeBytesLoop_true_final [] (by simp) hd t proc data
    · simp at hn
  | succ n ih =>
    intro d hn hd t proc data
    by_cases h8 : 8 ≤ d.length
    · rw [encodeList_ge d h8]
      have hsh : ((d.take 8 ++ 255 :: encodeList (d.drop 8)).map complByte) ++ t
          = (((d.take 8).map complByte) ++ [complByte 255])
              ++ ((encodeList (d.drop 8)).map complByte ++ t) := by
        simp
      rw [hsh, decodeBytesLoop_true_step ((d.take 8).map complByte) (complByte 255) _ proc data
          (by simp [List.length_take]; omega)
          (isBytes_append.mpr ⟨isBytes_map_complByte _,
            by intro c hc; simp [complByte] at hc; omega⟩)]
      rw [if_neg (by simp [complByte]), if_neg (by simp [complByte])]
      have hcc : ((d.take 8).map complByte).map complByte = d.take 8 :=
        map_complByte_complByte (isBytes_take hd 8)
      rw [hcc, ih (d.drop 8) (by simp; omega) (isBytes_drop hd 8) t _ _]
      have hc255 : complByte (complByte 255) = 255 := rfl
      rw [hc255]
      simp [List.take_append_drop, encodeList_ge d h8]
    · exact decodeBytesLoop_true_final d (by omega) hd t proc data

theorem encodeBytesDesc_nil (d : List Nat) (hd : isBytes d) :
    EncodeBytesDesc [] d = (encodeList d).map complByte := by
  show [] ++ reverseBytes (encodeList d) = _
  rw [List.nil_append, reverseBytes_eq_map (isBytes_encodeList d.length d le_rfl hd)]

/-- Claim C2: for every byte sequence d and trailing sequence t, DecodeBytes
on EncodeBytes([], d) followed by t succeeds with remainder exactly t,
payload exactly d and no error; with t empty the remainder is empty. -/
theorem decodeBytes_encodeBytes_roundtrip (d t : List Nat) :
    DecodeBytes (EncodeBytes [] d ++ t) = .ok (t, d) := by
  show (decodeBytesLoop false [] (encodeList d ++ t) []).2 = _
  rw [decodeBytesLoop_encode_false d.length d le_rfl t [] []]
  simp

/-- Claim C4: for every byte sequence d, DecodeBytesDesc on
EncodeBytesDesc([], d) succeeds with empty remainder, payload exactly d
and no error. -/
theorem decodeBytesDesc_encodeBytesDesc_roundtrip (d : List Nat) (hd : isBytes d) :
    DecodeBytesDesc (EncodeBytesDesc [] d) = .ok ([], d) := by
  rw [encodeBytesDesc_nil d hd]
  have h1 := decodeBytesLoop_encode_true d.length d le_rfl hd [] [] []
  simp only [List.append_nil, List.nil_append] at h1
  show (decodeBytesLoop true [] ((encodeList d).map complByte) []).2 = _
  rw [h1]

/-- Witness for claim C4 at the concrete input [1, 2, 3]. -/
theorem decodeBytesDesc_encodeBytesDesc_roundtrip_witness :
    DecodeBytesDesc (EncodeBytesDesc [] [1, 2, 3]) = .ok ([], [1, 2, 3]) :=
  decodeBytesDesc_encodeBytesDesc_roundtrip [1, 2, 3] (by decide)

/-- Claim C5: the code reaches make with a negative length instead of
returning a MalformedInput error: on the buffer [1], whose varint prefix
decodes to the negative length -1, DecodeCompactBytes passes the length
check (0 < -1 is false) and panics at make with a negative size, so a
negative decoded length does cause a panic, contradicting the claim. -/
theorem decodeCompactBytes_negative_length_panics :
    DecodeCompactBytes [1] = .panics := by
  decide

/-- Claim C6, counterexample: for the buffer with contents of length 5 and
capacity 6 and the request n = 6, reallocBytes keeps the original
capacity 6, which is smaller than len(b) + n = 11, refuting the claimed
capacity bound. -/
theorem reallocBytes_capacity_counterexample :
    ¬ ((reallocBytes (GoSlice.mk [0, 0, 0, 0, 0] 6) 6).cap
        ≥ (GoSlice.mk [0, 0, 0, 0, 0] 6).data.length + 6) := by
  decide

/-- Claim C6, amended: reallocBytes always preserves the contents (hence
the length and every stored byte); when cap(b) < n it returns a fresh
buffer of capacity exactly len(b) + n, otherwise it returns the original
buffer itself, so the capacity guarantee on return is only cap at least
n, not len(b) + n. -/
theorem reallocBytes_contract (b : GoSlice) (n : Nat) :
    (reallocBytes b n).data = b.data ∧
      (if b.cap < n then (reallocBytes b n).cap = b.data.length + n
       else reallocBytes b n = b) := by
  unfold reallocBytes
  split <;> simp

/-- Claim C7: EncodeBytesDesc(b, d) keeps the first len(b) bytes equal to
the original contents of b and fills the appended region with exactly the
per-byte complement of EncodeBytes([], d); nothing outside the appended
region is complemented. -/
theorem encodeBytesDesc_frame (b d : List Nat) (hd : isBytes d) :
    EncodeBytesDesc b d = b ++ (EncodeBytes [] d).map complByte := by
  show (EncodeBytes b d).take b.length ++ reverseBytes ((EncodeBytes b d).drop b.length) = _
  rw [EncodeBytes_append b d, List.take_left, List.drop_left,
    reverseBytes_eq_map (isBytes_encodeList d.length d le_rfl hd)]
  rfl

/-- Witness for claim C7 at the concrete buffer [9] and data [1, 2]. -/
theorem encodeBytesDesc_frame_witness :
    EncodeBytesDesc [9] [1, 2] = [9] ++ (EncodeBytes [] [1, 2]).map complByte :=
  encodeBytesDesc_frame [9] [1, 2] (by decide)

/-- Claim C8: on every byte range the word-at-a-time bulk complement path
and the byte-at-a-time path produce bit-identical results, whatever the
length of the range modulo the word size. -/
theorem fastReverseBytes_eq_safeReverseBytes (b : List Nat) (hb : isBytes b) :
    fastReverseBytes b = safeReverseBytes b :=
  fastReverseBytes_eq_safe b.length b le_rfl hb

/-- Witness for claim C8 at a concrete range of length 11 (one full word
plus a remainder of 3 bytes). -/
theorem fastReverseBytes_eq_safeReverseBytes_witness :
    fastReverseBytes [0, 1, 2, 3, 4, 5, 6, 7, 253, 254, 255]
      = safeReverseBytes [0, 1, 2, 3, 4, 5, 6, 7, 253, 254, 255] :=
  fastReverseBytes_eq_safeReverseBytes [0, 1, 2, 3, 4, 5, 6, 7, 253, 254, 255] (by decide)

theorem lexLtD_append_left :
    ∀ (x y u v : List Nat), x.length = y.length → lexLtD x y →
      lexLtD (x ++ u) (y ++ v)
  | [], [], _, _, _, h => h.elim
  | [], _ :: _, _, _, hl, _ => by simp at hl
  | _ :: _, [], _, _, hl, _ => by simp at hl
  | x0 :: xs, y0 :: ys, u, v, hl, h => by
    show x0 < y0 ∨ (x0 = y0 ∧ lexLtD (xs ++ u) (ys ++ v))
    rcases h with h | ⟨rfl, h⟩
    · exact Or.inl h
    · exact Or.inr ⟨rfl, lexLtD_append_left xs ys u v (by simpa using hl) h⟩

theorem lexLtD_append_same :
    ∀ (x u v : List Nat), lexLtD u v → lexLtD (x ++ u) (x ++ v)
  | [], _, _, h => h
  | _ :: xs, u, v, h => Or.inr ⟨rfl, lexLtD_append_same xs u v h⟩

theorem lexLt_split :
    ∀ (x y u v : List Nat), x.length = y.length → lexLt (x ++ u) (y ++ v) →
      lexLtD x y ∨ (x = y ∧ lexLt u v)
  | [], [], _, _, _, h => Or.inr ⟨rfl, h⟩
  | [], _ :: _, _, _, hl, _ => by simp at hl
  | _ :: _, [], _, _, hl, _ => by simp at hl
  | x0 :: xs, y0 :: ys, u, v, hl, h => by
    rcases h with h | ⟨rfl, h⟩
    · exact Or.inl (Or.inl h)
    · rcases lexLt_split xs ys u v (by simpa using hl) h with h2 | ⟨rfl, h2⟩
      · exact Or.inl (Or.inr ⟨rfl, h2⟩)
      · exact Or.inr ⟨rfl, h2⟩

theorem lexLtD_append_right :
    ∀ (x y v : List Nat), lexLtD x y → lexLtD x (y ++ v)
  | [], [], _, h => h.elim
  | [], _ :: _, _, h => h.elim
  | _ :: _, [], _, h => h.elim
  | x0 :: xs, y0 :: ys, v, h => by
    show x0 < y0 ∨ (x0 = y0 ∧ lexLtD xs (ys ++ v))
    rcases h with h | ⟨rfl, h⟩
    · exact Or.inl h
    · exact Or.inr ⟨rfl, lexLtD_append_right xs ys v h⟩

theorem lexLt_take_of_le :
    ∀ (x y : List Nat), y.length ≤ x.length → lexLt x y →
      lexLtD (x.take y.length) y
  | [], [], _, h => h.elim
  | _ :: _, [], _, h => h.elim
  | [], _ :: _, hl, _ => by simp at hl
  | x0 :: xs, y0 :: ys, hl, h => by
    show x0 < y0 ∨ (x0 = y0 ∧ lexLtD (xs.take ys.length) ys)
    rcases h with h | ⟨rfl, h⟩
    · exact Or.inl h
    · exact Or.inr ⟨rfl, lexLt_take_of_le xs ys (by simpa using hl) h⟩

theorem lexLt_take_lt :
    ∀ (x y : List Nat) (k : Nat), x.length < k → lexLt x y → lexLt x (y.take k)
  | [], [], _, _, h => h.elim
  | _ :: _, [], _, _, h => h.elim
  | [], _ :: _, k, hk, _ => by
    cases k with
    | zero => omega
    | succ k => exact trivial
  | x0 :: xs, y0 :: ys, k, hk, h => by
    cases k with
    | zero => omega
    | succ k =>
      show x0 < y0 ∨ (x0 = y0 ∧ lexLt xs (ys.take k))
      rcases h with h | ⟨rfl, h⟩
      · exact Or.inl h
      · exact Or.inr ⟨rfl, lexLt_take_lt xs ys k (by simpa using hk) h⟩

theorem lexLtD_pad :
    ∀ (z : List Nat) (k m m' : Nat), z.length = k → m < m' →
      lexLtD (List.replicate k 0 ++ [m]) (z ++ [m'])
  | [], k, m, m', hk, hm => by
    have : k = 0 := by simpa using hk.symm
    subst this
    exact Or.inl hm
  | z0 :: zs, k, m, m', hk, hm => by
    cases k with
    | zero => simp at hk
    | succ k =>
      show (0 : Nat) < z0 ∨ (0 = z0 ∧ lexLtD (List.replicate k 0 ++ [m]) (zs ++ [m']))
      rcases Nat.eq_zero_or_pos z0 with rfl | hz
      · exact Or.inr ⟨rfl, lexLtD_pad zs k m m' (by simpa using hk) hm⟩
      · exact Or.inl hz

theorem lexLtD_pad_left :
    ∀ (a c : List Nat) (m m' : Nat), a.length ≤ c.length → m < m' → lexLt a c →
      lexLtD (a ++ List.replicate (c.length - a.length) 0 ++ [m]) (c ++ [m'])
  | [], c, m, m', _, hm, _ => by
    simpa using lexLtD_pad c c.length m m' rfl hm
  | _ :: _, [], _, _, hl, _, _ => by simp at hl
  | a0 :: as, c0 :: cs, m, m', hl, hm, h => by
    have harith : (c0 :: cs).length - (a0 :: as).length = cs.length - as.length := by
      simp
    rw [harith]
    show a0 < c0 ∨ (a0 = c0
      ∧ lexLtD (as ++ List.replicate (cs.length - as.length) 0 ++ [m]) (cs ++ [m']))
    rcases h with h | ⟨rfl, h⟩
    · exact Or.inl h
    · exact Or.inr ⟨rfl, lexLtD_pad_left as cs m m' (by simpa using hl) hm h⟩

theorem lexLtD_groups :
    ∀ (a b : List Nat) (g : Nat), g ≤ 255 → a.length ≤ g → b.length ≤ g → lexLt a b →
      lexLtD (a ++ List.replicate (g - a.length) 0 ++ [255 - (g - a.length)])
        (b ++ List.replicate (g - b.length) 0 ++ [255 - (g - b.length)])
  | [], [], _, _, _, _, h => h.elim
  | _ :: _, [], _, _, _, _, h => h.elim
  | [], b0 :: bs, g, hg, _, hbl, _ => by
    have hbl2 : bs.length + 1 ≤ g := by simpa using hbl
    have hz : ((b0 :: bs) ++ List.replicate (g - (b0 :: bs).length) 0).length = g := by
      simp
      omega
    have h1 := lexLtD_pad ((b0 :: bs) ++ List.replicate (g - (b0 :: bs).length) 0) g
      (255 - g) (255 - (g - (b0 :: bs).length)) hz (by simp; omega)
    simpa using h1
  | a0 :: as, b0 :: bs, g, hg, hal, hbl, h => by
    cases g with
    | zero => simp at hal
    | succ g =>
      have e1 : g + 1 - (a0 :: as).length = g - as.length := by simp
      have e2 : g + 1 - (b0 :: bs).length = g - bs.length := by simp
      rw [e1, e2]
      show a0 < b0 ∨ (a0 = b0
        ∧ lexLtD (as ++ List.replicate (g - as.length) 0 ++ [255 - (g - as.length)])
            (bs ++ List.replicate (g - bs.length) 0 ++ [255 - (g - bs.length)]))
      rcases h with h | ⟨rfl, h⟩
      · exact Or.inl h
      · exact Or.inr ⟨rfl, lexLtD_groups as bs g (by omega) (by simpa using hal)
          (by simpa using hbl) h⟩

theorem encodeList_mono_caseB (a b : List Nat) (ha : a.length < 8) (hb : 8 ≤ b.length)
    (h : lexLt a b) : lexLtD (encodeList a) (encodeList b) := by
  rw [encodeList_lt a ha, encodeList_ge b hb]
  have hsh : b.take 8 ++ 255 :: encodeList (b.drop 8)
      = (b.take 8 ++ [255]) ++ encodeList (b.drop 8) := by
    simp
  rw [hsh]
  apply lexLtD_append_right
  have h1 : lexLt a (b.take 8) := lexLt_take_lt a b 8 ha h
  have hlen : (b.take 8).length = 8 := by
    simp [List.length_take]
    omega
  have h2 := lexLtD_pad_left a (b.take 8) (255 - (8 - a.length)) 255
    (by omega) (by omega) h1
  rw [hlen] at h2
  exact h2

theorem encodeList_mono_caseC (a b : List Nat) (ha : 8 ≤ a.length) (hb : b.length < 8)
    (h : lexLt a b) : lexLtD (encodeList a) (encodeList b) := by
  rw [encodeList_ge a ha, encodeList_lt b hb]
  have h1 : lexLtD (a.take b.length) b := lexLt_take_of_le a b (by omega) h
  have htt : (a.take 8).take b.length = a.take b.length := by
    rw [List.take_take]
    have : min b.length 8 = b.length := by omega
    rw [this]
  have hsplit : a.take 8 = a.take b.length ++ ((a.take 8).drop b.length) := by
    conv =>
      lhs
      rw [← List.take_append_drop b.length (a.take 8)]
    rw [htt]
  rw [hsplit, List.append_assoc, List.append_assoc b]
  have hlen : (a.take b.length).length = b.length := by
    simp [List.length_take]
    omega
  exact lexLtD_append_left _ _ _ _ hlen h1

theorem encodeList_mono_caseD (a b : List Nat) (ha : a.length < 8) (hb : b.length < 8)
    (h : lexLt a b) : lexLtD (encodeList a) (encodeList b) := by
  rw [encodeList_lt a ha, encodeList_lt b hb]
  exact lexLtD_groups a b 8 (by norm_num) (by omega) (by omega) h

theorem encodeList_mono :
    ∀ (n : Nat) (a b : List Nat), a.length ≤ n → lexLt a b →
      lexLtD (encodeList a) (encodeList b) := by
  intro n
  induction n with
  | zero =>
    intro a b ha h
    by_cases hb : 8 ≤ b.length
    · exact encodeList_mono_caseB a b (by omega) hb h
    · exact encodeList_mono_caseD a b (by omega) (by omega) h
  | succ n ih =>
    intro a b ha h
    by_cases h8a : 8 ≤ a.length
    · by_cases h8b : 8 ≤ b.length
      · rw [encodeList_ge a h8a, encodeList_ge b h8b]
        rw [← List.take_append_drop 8 a, ← List.take_append_drop 8 b] at h
        have hlen : (a.take 8).length = (b.take 8).length := by
          simp [List.length_take]
          omega
        rcases lexLt_split (a.take 8) (b.take 8) (a.drop 8) (b.drop 8) hlen h with
          hd | ⟨heq, hlt⟩
        · exact lexLtD_append_left _ _ _ _ hlen hd
        · rw [heq]
          apply lexLtD_append_same
          exact Or.inr ⟨rfl, ih (a.drop 8) (b.drop 8) (by simp; omega) hlt⟩
      · exact encodeList_mono_caseC a b h8a (by omega) h
    · by_cases h8b : 8 ≤ b.length
      · exact encodeList_mono_caseB a b (by omega) h8b h
      · exact encodeList_mono_caseD a b (by omega) (by omega) h

/-- Claim C1: the three-way bytewise comparison of any two sequences
equals the three-way comparison of their ascending encodings, so the
group encoding preserves order exactly, equality included. -/
theorem compareBytes_encodeBytes (a b : List Nat) :
    compareBytes a b = compareBytes (EncodeBytes [] a) (EncodeBytes [] b) := by
  show _ = compareBytes (encodeList a) (encodeList b)
  rcases compareBytes_trichot a b with h | h | h
  · rw [h]
    have hl := (compareBytes_eq_neg_iff a b).mp h
    have hD := lexLtD_lexLt (encodeList_mono a.length a b le_rfl hl)
    exact ((compareBytes_eq_neg_iff _ _).mpr hD).symm
  · rw [h]
    have heq := (compareBytes_eq_zero_iff a b).mp h
    subst heq
    exact ((compareBytes_eq_zero_iff _ _).mpr rfl).symm
  · rw [h]
    have hl := (compareBytes_eq_one_iff a b).mp h
    have hD := lexLtD_lexLt (encodeList_mono b.length b a le_rfl hl)
    exact ((compareBytes_eq_one_iff _ _).mpr hD).symm

theorem lexLtD_map_compl :
    ∀ (x y : List Nat), isBytes y → lexLtD x y →
      lexLtD (y.map complByte) (x.map complByte)
  | [], [], _, h => h.elim
  | [], _ :: _, _, h => h.elim
  | _ :: _, [], _, h => h.elim
  | x0 :: xs, y0 :: ys, hy, h => by
    have hy0 : y0 < 256 := hy y0 (by simp)
    show complByte y0 < complByte x0
      ∨ (complByte y0 = complByte x0 ∧ lexLtD (ys.map complByte) (xs.map complByte))
    rcases h with h | ⟨rfl, h⟩
    · exact Or.inl (by unfold complByte; omega)
    · exact Or.inr ⟨rfl, lexLtD_map_compl xs ys (fun c hc => hy c (by simp [hc])) h⟩

/-- Claim C3: the three-way bytewise comparison of any two byte sequences
equals the negation of the three-way comparison of their descending
encodings, so the descending encoding reverses order exactly. -/
theorem compareBytes_encodeBytesDesc (a b : List Nat) (ha : isBytes a) (hb : isBytes b) :
    compareBytes a b = -compareBytes (EncodeBytesDesc [] a) (EncodeBytesDesc [] b) := by
  rw [encodeBytesDesc_nil a ha, encodeBytesDesc_nil b hb]
  rcases compareBytes_trichot a b with h | h | h
  · rw [h]
    have hl := (compareBytes_eq_neg_iff a b).mp h
    have hD := encodeList_mono a.length a b le_rfl hl
    have hflip := lexLtD_map_compl (encodeList a) (encodeList b)
      (isBytes_encodeList b.length b le_rfl hb) hD
    rw [(compareBytes_eq_one_iff _ _).mpr (lexLtD_lexLt hflip)]
  · rw [h]
    have heq := (compareBytes_eq_zero_iff a b).mp h
    subst heq
    rw [(compareBytes_eq_zero_iff ((encodeList a).map complByte)
      ((encodeList a).map complByte)).mpr rfl]
    norm_num
  · rw [h]
    have hl := (compareBytes_eq_one_iff a b).mp h
    have hD := encodeList_mono b.length b a le_rfl hl
    have hflip := lexLtD_map_compl (encodeList b) (encodeList a)
      (isBytes_encodeList a.length a le_rfl ha) hD
    rw [(compareBytes_eq_neg_iff _ _).mpr (lexLtD_lexLt hflip)]
    norm_num

/-- Witness for claim C3 at the concrete inputs [1] and [1, 2]. -/
theorem compareBytes_encodeBytesDesc_witness :
    compareBytes [1] [1, 2]
      = -compareBytes (EncodeBytesDesc [] [1]) (EncodeBytesDesc [] [1, 2]) :=
  compareBytes_encodeBytesDesc [1] [1, 2] (by decide) (by decide)

/-- Number of 9-byte groups the descending decoder reads from a buffer
before stopping: it keeps going exactly while the stored marker byte is 0
(whose complement is the continue marker 255), and reads one final group
at the first nonzero marker byte (break, invalid marker or invalid
padding); a tail shorter than 9 bytes is never read. -/
def descGroupsRead : List Nat → Nat
  | _ :: _ :: _ :: _ :: _ :: _ :: _ :: _ :: b8 :: rest =>
    if b8 = 0 then 1 + descGroupsRead rest else 1
  | _ => 0

theorem descGroupsRead_short (b : List Nat) (h : b.length < 9) :
    descGroupsRead b = 0 := by
  rcases b with _ | ⟨x0, b⟩; · rfl
  rcases b with _ | ⟨x1, b⟩; · rfl
  rcases b with _ | ⟨x2, b⟩; · rfl
  rcases b with _ | ⟨x3, b⟩; · rfl
  rcases b with _ | ⟨x4, b⟩; · rfl
  rcases b with _ | ⟨x5, b⟩; · rfl
  rcases b with _ | ⟨x6, b⟩; · rfl
  rcases b with _ | ⟨x7, b⟩; · rfl
  rcases b with _ | ⟨x8, b⟩; · rfl
  simp at h
  omega

theorem descGroupsRead_step (g : List Nat) (m : Nat) (rest : List Nat) (hg : g.length = 8) :
    descGroupsRead ((g ++ [m]) ++ rest)
      = if m = 0 then 1 + descGroupsRead rest else 1 := by
  obtain ⟨x0, x1, x2, x3, x4, x5, x6, x7, t, rfl⟩ := @exists_cons8 g (by omega)
  have ht : t = [] := by simpa using hg
  subst ht
  rfl

theorem decodeBytesLoop_buffer_false :
    ∀ (n : Nat) (proc b data : List Nat), b.length ≤ n →
      (decodeBytesLoop false proc b data).1 = proc ++ b := by
  intro n
  induction n with
  | zero =>
    intro proc b data hn
    rw [decodeBytesLoop_short false proc b data (by omega)]
  | succ n ih =>
    intro proc b data hn
    by_cases h9 : 9 ≤ b.length
    · obtain ⟨x0, x1, x2, x3, x4, x5, x6, x7, t, rfl⟩ := @exists_cons8 b (by omega)
      rcases t with _ | ⟨x8, rest⟩
      · simp at h9
      · rw [show x0 :: x1 :: x2 :: x3 :: x4 :: x5 :: x6 :: x7 :: x8 :: rest
            = (([x0, x1, x2, x3, x4, x5, x6, x7] ++ [x8]) ++ rest) by simp]
        rw [decodeBytesLoop_false_step [x0, x1, x2, x3, x4, x5, x6, x7] x8 rest proc data
          (by simp)]
        split_ifs with h1 h2 h3
        · simp
        · simp
        · simp
        · rw [ih (proc ++ ([x0, x1, x2, x3, x4, x5, x6, x7] ++ [x8])) rest _
            (by simp at hn; omega)]
          simp
    · rw [decodeBytesLoop_short false proc b data (by omega)]

theorem decodeBytesLoop_buffer_true :
    ∀ (n : Nat) (proc b data : List Nat), b.length ≤ n → isBytes b →
      (decodeBytesLoop true proc b data).1
        = proc ++ (b.take (9 * descGroupsRead b)).map complByte
            ++ b.drop (9 * descGroupsRead b) := by
  intro n
  induction n with
  | zero =>
    intro proc b data hn hb
    rw [decodeBytesLoop_short true proc b data (by omega),
      descGroupsRead_short b (by omega)]
    simp
  | succ n ih =>
    intro proc b data hn hb
    by_cases h9 : 9 ≤ b.length
    · obtain ⟨x0, x1, x2, x3, x4, x5, x6, x7, t, rfl⟩ := @exists_cons8 b (by omega)
      rcases t with _ | ⟨x8, rest⟩
      · simp at h9
      · rw [show x0 :: x1 :: x2 :: x3 :: x4 :: x5 :: x6 :: x7 :: x8 :: rest
            = (([x0, x1, x2, x3, x4, x5, x6, x7] ++ [x8]) ++ rest) by simp]
        rw [decodeBytesLoop_true_step [x0, x1, x2, x3, x4, x5, x6, x7] x8 rest proc data
          (by simp)
          (by intro c hc
              apply hb
              simp at hc ⊢
              tauto),
          descGroupsRead_step [x0, x1, x2, x3, x4, x5, x6, x7] x8 rest (by simp)]
        by_cases hm0 : x8 = 0
        · subst hm0
          rw [if_neg (by omega), if_neg (by omega), if_pos rfl]
          rw [ih (proc ++ ([x0, x1, x2, x3, x4, x5, x6, x7].map complByte ++ [complByte 0]))
            rest _ (by simp at hn; omega)
            (fun c hc => hb c (by simp at hc ⊢; tauto))]
          have harith : 9 * (1 + descGroupsRead rest)
              = ([x0, x1, x2, x3, x4, x5, x6, x7] ++ [0]).length + 9 * descGroupsRead rest := by
            simp
            omega
          rw [harith, List.take_append, List.drop_append]
          simp [complByte]
        · rw [if_neg hm0]
          have harith : (9 : Nat) * 1 = ([x0, x1, x2, x3, x4, x5, x6, x7] ++ [x8]).length := by
            simp
          rw [harith, List.take_left, List.drop_left]
          split_ifs with h1 h3 <;> simp [complByte]
    · rw [decodeBytesLoop_short true proc b data (by omega),
        descGroupsRead_short b (by omega)]
      simp

theorem decodeBytesDesc_encodeList_error (d : List Nat) (hd : isBytes d) :
    DecodeBytesDesc (encodeList d) = .error "invalid marker byte" := by
  by_cases h8 : 8 ≤ d.length
  · rw [encodeList_ge d h8]
    have hsh : d.take 8 ++ 255 :: encodeList (d.drop 8)
        = (d.take 8 ++ [255]) ++ encodeList (d.drop 8) := by
      simp
    rw [hsh]
    show (decodeBytesLoop true [] ((d.take 8 ++ [255]) ++ encodeList (d.drop 8)) []).2 = _
    rw [decodeBytesLoop_true_step (d.take 8) 255 _ [] []
      (by simp [List.length_take]; omega)
      (isBytes_append.mpr ⟨isBytes_take hd 8, by intro c hc; simp at hc; omega⟩)]
    rw [if_pos (by omega)]
  · rw [encodeList_lt d (by omega)]
    have hsh : d ++ List.replicate (8 - d.length) 0 ++ [255 - (8 - d.length)]
        = ((d ++ List.replicate (8 - d.length) 0) ++ [255 - (8 - d.length)]) ++ [] := by
      simp
    rw [hsh]
    show (decodeBytesLoop true []
      (((d ++ List.replicate (8 - d.length) 0) ++ [255 - (8 - d.length)]) ++ []) []).2 = _
    rw [decodeBytesLoop_true_step (d ++ List.replicate (8 - d.length) 0)
      (255 - (8 - d.length)) [] [] []
      (by simp; omega)
      (isBytes_append.mpr ⟨isBytes_append.mpr ⟨hd, isBytes_replicate _ 0 (by omega)⟩,
        by intro c hc; simp at hc; omega⟩)]
    rw [if_pos (by omega)]

/-- Claim C9: ascending DecodeBytes never writes to the caller's buffer;
DecodeBytesDesc overwrites, inside the caller's buffer, exactly the
9-byte groups it consumed with their bitwise complement (groups read
before a failure included), and in particular after a successful
descending decode of a descending encoding the buffer holds the ascending
encoding, so decoding the same buffer a second time fails. -/
theorem decodeBytes_buffer_mutation (b : List Nat) (hb : isBytes b) :
    decodeBytesBuffer b false = b ∧
    decodeBytesBuffer b true
      = (b.take (9 * descGroupsRead b)).map complByte
          ++ b.drop (9 * descGroupsRead b) ∧
    (∀ d, isBytes d → b = EncodeBytesDesc [] d →
      ∃ e, DecodeBytesDesc (decodeBytesBuffer b true) = .error e) := by
  refine ⟨?_, ?_, ?_⟩
  · show (decodeBytesLoop false [] b []).1 = b
    rw [decodeBytesLoop_buffer_false b.length [] b [] le_rfl]
    simp
  · show (decodeBytesLoop true [] b []).1 = _
    rw [decodeBytesLoop_buffer_true b.length [] b [] le_rfl hb]
    simp
  · intro d hd hbd
    subst hbd
    have hbuf : decodeBytesBuffer (EncodeBytesDesc [] d) true = encodeList d := by
      rw [encodeBytesDesc_nil d hd]
      show (decodeBytesLoop true [] ((encodeList d).map complByte) []).1 = _
      have h1 := decodeBytesLoop_encode_true d.length d le_rfl hd [] [] []
      simp only [List.append_nil, List.nil_append] at h1
      rw [h1]
    rw [hbuf]
    exact ⟨"invalid marker byte", decodeBytesDesc_encodeList_error d hd⟩

/-- Witness for claim C9 at the buffer encoding the byte string [7]
descending: the mutated buffer decodes to an error the second time. -/
theorem decodeBytes_buffer_mutation_witness :
    ∃ e, DecodeBytesDesc (decodeBytesBuffer (EncodeBytesDesc [] [7]) true) = .error e :=
  (decodeBytes_buffer_mutation (EncodeBytesDesc [] [7]) (by decide)).2.2 [7] (by decide) rfl

theorem decodeBytesLoop_canonical :
    ∀ (n : Nat) (b : List Nat), b.length ≤ n → isBytes b →
      ∀ (proc data r dfull : List Nat),
        (decodeBytesLoop false proc b data).2 = .ok (r, dfull) →
        ∃ d2, dfull = data ++ d2 ∧ b = encodeList d2 ++ r := by
  intro n
  induction n with
  | zero =>
    intro b hn hb proc data r dfull h
    rw [decodeBytesLoop_short false proc b data (by omega)] at h
    simp at h
  | succ n ih =>
    intro b hn hb proc data r dfull h
    by_cases h9 : 9 ≤ b.length
    · obtain ⟨x0, x1, x2, x3, x4, x5, x6, x7, t, rfl⟩ := @exists_cons8 b (by omega)
      rcases t with _ | ⟨x8, rest⟩
      · simp at h9
      · have hx8 : x8 < 256 := hb x8 (by simp)
        rw [show x0 :: x1 :: x2 :: x3 :: x4 :: x5 :: x6 :: x7 :: x8 :: rest
              = (([x0, x1, x2, x3, x4, x5, x6, x7] ++ [x8]) ++ rest) by simp] at h ⊢
        rw [decodeBytesLoop_false_step [x0, x1, x2, x3, x4, x5, x6, x7] x8 rest proc data
          (by simp)] at h
        by_cases h1 : 8 < 255 - x8
        · rw [if_pos h1] at h
          simp at h
        · rw [if_neg h1] at h
          by_cases h2 : x8 ≠ 255
          · rw [if_pos h2] at h
            by_cases h3 : (List.drop (8 - (255 - x8)) [x0, x1, x2, x3, x4, x5, x6, x7]).count 0
                ≠ 255 - x8
            · rw [if_pos h3] at h
              simp at h
            · rw [if_neg h3] at h
              simp at h
              obtain ⟨hr, hdfull⟩ := h
              subst hr
              refine ⟨[x0, x1, x2, x3, x4, x5, x6, x7].take (8 - (255 - x8)),
                hdfull.symm, ?_⟩
              push_neg at h3
              have hlenpad : (List.drop (8 - (255 - x8)) [x0, x1, x2, x3, x4, x5, x6, x7]).length
                  = 255 - x8 := by
                simp
                omega
              have hpad : List.drop (8 - (255 - x8)) [x0, x1, x2, x3, x4, x5, x6, x7]
                  = List.replicate (255 - x8) 0 := by
                rw [List.eq_replicate_iff]
                refine ⟨hlenpad, ?_⟩
                intro c hc
                have := List.count_eq_length.mp (by rw [hlenpad]; exact h3) c hc
                omega
              have hlentake : ([x0, x1, x2, x3, x4, x5, x6, x7].take (8 - (255 - x8))).length
                  = 8 - (255 - x8) := by
                simp
              rw [encodeList_lt _ (by rw [hlentake]; omega), hlentake]
              have e1 : 8 - (8 - (255 - x8)) = 255 - x8 := by omega
              have e2 : 255 - (255 - x8) = x8 := by omega
              rw [e1, e2, ← hpad, List.take_append_drop]
          · rw [if_neg h2] at h
            push_neg at h2
            subst h2
            obtain ⟨d2, hd2, hrest⟩ := ih rest (by simp at hn; omega)
              (fun c hc => hb c (by simp at hc ⊢; tauto))
              (proc ++ ([x0, x1, x2, x3, x4, x5, x6, x7] ++ [255])) _ r dfull h
            refine ⟨[x0, x1, x2, x3, x4, x5, x6, x7] ++ d2, by simp [hd2], ?_⟩
            rw [encodeList_ge _ (by simp), List.take_left' (by simp), List.drop_left' (by simp),
              hrest]
            simp
    · rw [decodeBytesLoop_short false proc b data (by omega)] at h
      simp at h

/-- Claim C10: ascending decode accepts only canonical encodings: a
successful DecodeBytes with remainder r and payload d means the input was
exactly EncodeBytes([], d) followed by r; consequently every strict
prefix of a valid encoded value fails to decode. -/
theorem decodeBytes_canonical :
    (∀ b r d, isBytes b → DecodeBytes b = .ok (r, d) → b = EncodeBytes [] d ++ r) ∧
    (∀ d p q, isBytes d → q ≠ [] → p ++ q = EncodeBytes [] d →
      ∃ e, DecodeBytes p = .error e) := by
  have hcan : ∀ b r d, isBytes b → DecodeBytes b = .ok (r, d) →
      b = EncodeBytes [] d ++ r := by
    intro b r d hb hok
    obtain ⟨d2, hd2, hbeq⟩ :=
      decodeBytesLoop_canonical b.length b le_rfl hb [] [] r d hok
    simp at hd2
    subst hd2
    exact hbeq
  refine ⟨hcan, ?_⟩
  intro d p q hd hq hpq
  cases hres : DecodeBytes p with
  | error e => exact ⟨e, rfl⟩
  | ok val =>
    obtain ⟨r, d2⟩ := val
    exfalso
    have hpbytes : isBytes p := by
      intro c hc
      apply isBytes_encodeList d.length d le_rfl hd c
      have : c ∈ p ++ q := List.mem_append_left q hc
      rw [hpq] at this
      exact this
    have hp := hcan p r d2 hpbytes hres
    have h1 : encodeList d = encodeList d2 ++ (r ++ q) := by
      have : p ++ q = encodeList d := hpq
      rw [hp] at this
      rw [← this]
      simp
      rfl
    have h2 := decodeBytesLoop_encode_false d.length d le_rfl [] [] []
    have h3 := decodeBytesLoop_encode_false d2.length d2 le_rfl (r ++ q) [] []
    rw [← h1] at h3
    rw [List.append_nil] at h2
    have := congrArg Prod.snd (h2.symm.trans h3)
    simp at this
    exact hq this.1.2

/-- Witness for claim C10: the encoding of [1] with trailer [9] is
reconstructed from its decode, and the 8-byte strict prefix of the
encoding of [1] fails to decode. -/
theorem decodeBytes_canonical_witness :
    [1, 0, 0, 0, 0, 0, 0, 0, 248, 9] = EncodeBytes [] [1] ++ [9] ∧
    ∃ e, DecodeBytes [1, 0, 0, 0, 0, 0, 0, 0] = .error e :=
  ⟨decodeBytes_canonical.1 [1, 0, 0, 0, 0, 0, 0, 0, 248, 9] [9] [1] (by decide) (by rfl),
   decodeBytes_canonical.2 [1] [1, 0, 0, 0, 0, 0, 0, 0] [248] (by decide) (by decide)
     (by rfl)⟩
